import Mathlib

/-!
Verification of the tenex-analytics repository: a constant-product AMM
whale-trade simulator (`whale_sim_app.py`) and an APY/TVL yield explorer
(`apy_tvl_app.py`).  The numeric Python code is shallowly embedded over ℚ
(exact rational arithmetic standing in for IEEE doubles); the day loop of
`simulate` becomes explicit state passing over a `SimState` record.
-/

namespace TenexAnalytics

/-! ### Shared constants (module-level constants of both apps) -/

def DAILY_BLOCKS : ℚ := 7200
def MINER_EMISSION_SHARE : ℚ := 41/100

/-! ### whale_sim_app.py constants -/

def BUYBACK_START_TAO : ℚ := 20
def BUYBACK_INCREMENT_PER_DAY : ℚ := 1/2

/-! ### apy_tvl_app.py constants -/

def EPOCHS_PER_DAY : ℚ := 20
def BASE_TRADING_FEE : ℚ := 3/1000
def BASE_BORROWING_FEE : ℚ := 5/100000
def KINK : ℚ := 4/5
def SLOPE1 : ℚ := 15/100000
def SLOPE2 : ℚ := 8/10000
def LP_FEE_SHARE : ℚ := 875/1000
def TRADING_FEE_SHARE : ℚ := 3/10
def BORROWING_FEE_SHARE : ℚ := 35/100

/-! ### The constant-product AMM primitive (`amm_swap_xy`) -/

/-- `amm_swap_xy(x_reserve, y_reserve, dx)` from whale_sim_app.py:
returns `(dy_out, new_x, new_y)`; a no-op when `dx <= 0`, otherwise the
constant-product swap `k = x*y`, `new_x = x + dx`, `new_y = k / new_x`,
`dy_out = y - new_y`. -/
def amm_swap_xy (x_reserve y_reserve dx : ℚ) : ℚ × ℚ × ℚ :=
  if dx ≤ 0 then (0, x_reserve, y_reserve)
  else
    let k := x_reserve * y_reserve
    let new_x := x_reserve + dx
    let new_y := k / new_x
    let dy_out := y_reserve - new_y
    (dy_out, new_x, new_y)

/-! ### The day-loop state machine of `simulate` -/

/-- The mutable tuple carried from day `d` to day `d+1` in `simulate`. -/
structure SimState where
  tao_r : ℚ
  alpha_r : ℚ
  whale_alpha_holdings : ℚ
  whale_tao_spent_cum : ℚ
  deriving DecidableEq, Repr, Inhabited

/-- One row of the simulator output (one record appended per day). -/
structure DayRecord where
  day : ℕ
  price : ℚ
  tao_reserve : ℚ
  alpha_reserve : ℚ
  whale_alpha : ℚ
  whale_tao_spent : ℚ
  whale_tao_value : ℚ
  deriving DecidableEq, Repr, Inhabited

/-- Whale buy phase of a simulated day (whale_sim_app.py lines 48-58):
if `whale_daily_buy_tao > 0 and d < max(0, buy_days)`, swap the daily buy
into the pool, accumulate holdings and spend, then apply the counter-sell
of `0.25 * whale_daily_buy_tao / max(price, 1e-12)` alpha back into the
pool.  `price` is the day-start snapshot. -/
def whaleStep (wdb : ℚ) (bd : ℤ) (d : ℕ) (price : ℚ) (s : SimState) : SimState :=
  if 0 < wdb ∧ (d : ℤ) < max 0 bd then
    let r1 := amm_swap_xy s.tao_r s.alpha_r wdb
    let holdings := s.whale_alpha_holdings + r1.1
    let spent := s.whale_tao_spent_cum + wdb
    let counter_alpha_sell := 1/4 * wdb / max price (1/10^12)
    if 0 < counter_alpha_sell then
      let r2 := amm_swap_xy r1.2.2 r1.2.1 counter_alpha_sell
      ⟨r2.2.2, r2.2.1, holdings, spent⟩
    else
      ⟨r1.2.1, r1.2.2, holdings, spent⟩
  else s

/-- Protocol buyback step (lines 60-62): when enabled, swap
`BUYBACK_START_TAO + BUYBACK_INCREMENT_PER_DAY * d` tao into the pool. -/
def buybackStep (ib : Bool) (d : ℕ) (s : SimState) : SimState :=
  let buyback_tao := BUYBACK_START_TAO + BUYBACK_INCREMENT_PER_DAY * (d : ℚ)
  if ib = true ∧ 0 < buyback_tao then
    let r := amm_swap_xy s.tao_r s.alpha_r buyback_tao
    ⟨r.2.1, r.2.2, s.whale_alpha_holdings, s.whale_tao_spent_cum⟩
  else s

/-- `emission_factor = 0.5 if d >= 60 else 1.0` (line 64). -/
def emissionFactor (d : ℕ) : ℚ := if 60 ≤ d then 1/2 else 1

/-- Emission inflow (lines 64-66): alpha grows by `DAILY_BLOCKS * factor`,
tao by `DAILY_BLOCKS * price * factor` with the day-start price snapshot. -/
def emissionStep (d : ℕ) (price : ℚ) (s : SimState) : SimState :=
  ⟨s.tao_r + DAILY_BLOCKS * price * emissionFactor d,
   s.alpha_r + DAILY_BLOCKS * emissionFactor d,
   s.whale_alpha_holdings, s.whale_tao_spent_cum⟩

/-- `dynamic_burn = max(0.5 - 0.01 * d, 0.3)` (line 68). -/
def dynamicBurn (d : ℕ) : ℚ := max (1/2 - 1/100 * (d : ℚ)) (3/10)

/-- Miner sell pressure (lines 68-73): swap
`DAILY_BLOCKS * MINER_EMISSION_SHARE * dynamic_burn` alpha into the pool. -/
def minerSellStep (d : ℕ) (s : SimState) : SimState :=
  let miner_alpha_sell := DAILY_BLOCKS * MINER_EMISSION_SHARE * dynamicBurn d
  if 0 < miner_alpha_sell then
    let r := amm_swap_xy s.alpha_r s.tao_r miner_alpha_sell
    ⟨r.2.2, r.2.1, s.whale_alpha_holdings, s.whale_tao_spent_cum⟩
  else s

/-- Whale mark-to-market (lines 75-81): hypothetical liquidation value of
the whale holdings against the current reserves, never below zero; zero
when the whale holds nothing.  A pure read: it returns a number and does
not touch the state. -/
def markToMarket (alpha_r tao_r holdings : ℚ) : ℚ :=
  if 0 < holdings then
    let k_val := alpha_r * tao_r
    let new_alpha_tmp := alpha_r + holdings
    let new_tao_tmp := k_val / max new_alpha_tmp (1/10^12)
    max (tao_r - new_tao_tmp) 0
  else 0

/-- One iteration of the day loop of `simulate` (lines 45-91): price
snapshot, whale buy phase, buyback, emission, miner sell, mark-to-market,
then the record for the day. -/
def simStep (wdb : ℚ) (bd : ℤ) (ib : Bool) (d : ℕ) (s : SimState) :
    SimState × DayRecord :=
  let price := s.tao_r / s.alpha_r
  let s4 := minerSellStep d (emissionStep d price (buybackStep ib d (whaleStep wdb bd d price s)))
  let wtv := markToMarket s4.alpha_r s4.tao_r s4.whale_alpha_holdings
  (s4,
   { day := d
     price := s4.tao_r / s4.alpha_r
     tao_reserve := s4.tao_r
     alpha_reserve := s4.alpha_r
     whale_alpha := s4.whale_alpha_holdings
     whale_tao_spent := s4.whale_tao_spent_cum
     whale_tao_value := wtv })

/-- Run the day loop for `n` more days starting at day index `d`,
returning the final state and the records in day order. -/
def runDays (wdb : ℚ) (bd : ℤ) (ib : Bool) (s : SimState) (d : ℕ) :
    ℕ → SimState × List DayRecord
  | 0 => (s, [])
  | n + 1 =>
    let p := simStep wdb bd ib d s
    let rest := runDays wdb bd ib p.1 (d + 1) n
    (rest.1, p.2 :: rest.2)

/-- `simulate(days, tao_reserve_init, alpha_reserve_init,
whale_daily_buy_tao, buy_days, include_buyback)` (lines 33-93): the full
ordered `DayRecord` sequence. -/
def simulate (days : ℕ) (tao_reserve_init alpha_reserve_init wdb : ℚ)
    (bd : ℤ) (ib : Bool) : List DayRecord :=
  (runDays wdb bd ib ⟨tao_reserve_init, alpha_reserve_init, 0, 0⟩ 0 days).2

/-! ### apy_tvl_app.py: yield engine -/

/-- Below-kink branch of the borrowing-rate curve (line 51):
`BASE_BORROWING_FEE + utilization * SLOPE1 / KINK`. -/
def borrowRateBelow (u : ℚ) : ℚ := BASE_BORROWING_FEE + u * SLOPE1 / KINK

/-- Above-kink branch of the borrowing-rate curve (line 53):
`BASE_BORROWING_FEE + SLOPE1 + (utilization - KINK) * SLOPE2 / (1 - KINK)`. -/
def borrowRateAbove (u : ℚ) : ℚ :=
  BASE_BORROWING_FEE + SLOPE1 + (u - KINK) * SLOPE2 / (1 - KINK)

/-- `compute_daily_rewards` (apy_tvl_app.py lines 40-64): returns
`(trading fee reward, borrowing fee reward, total daily reward)`. -/
def compute_daily_rewards (tvl turnover_rate utilization_rate price burn_percentage : ℚ) :
    ℚ × ℚ × ℚ :=
  let daily_lp_trading_fee_reward :=
    tvl * turnover_rate * BASE_TRADING_FEE * 2 * TRADING_FEE_SHARE * LP_FEE_SHARE
  let borrow_rate_component :=
    if utilization_rate ≤ KINK then borrowRateBelow utilization_rate
    else borrowRateAbove utilization_rate
  let daily_lp_borrowing_fee_reward :=
    tvl * utilization_rate * borrow_rate_component * BORROWING_FEE_SHARE * LP_FEE_SHARE *
      EPOCHS_PER_DAY
  let lp_emission_share_effective := max 0 (min 1 (1 - burn_percentage / 100))
  let daily_miner_emission :=
    price * DAILY_BLOCKS * MINER_EMISSION_SHARE * lp_emission_share_effective
  let daily_lp_fee_reward := daily_lp_trading_fee_reward + daily_lp_borrowing_fee_reward
  let daily_lp_reward := daily_lp_fee_reward + daily_miner_emission
  (daily_lp_trading_fee_reward, daily_lp_borrowing_fee_reward, daily_lp_reward)

/-- `compute_apr_apy` (lines 66-71): `(0,0)` when `tvl <= 0`, otherwise
`apr = (daily_reward/tvl) * 365` and `apy = (1 + daily_reward/tvl)^365 - 1`. -/
def compute_apr_apy (daily_reward tvl : ℚ) : ℚ × ℚ :=
  if tvl ≤ 0 then (0, 0)
  else ((daily_reward / tvl) * 365, (1 + daily_reward / tvl) ^ (365 : ℕ) - 1)

/-- The state after `i` further days starting at day index `d` from state `s`. -/
def stateFrom (wdb : ℚ) (bd : ℤ) (ib : Bool) (d : ℕ) (s : SimState) : ℕ → SimState
  | 0 => s
  | n + 1 => (simStep wdb bd ib (d + n) (stateFrom wdb bd ib d s n)).1

/-! ### Helper lemmas -/

theorem amm_swap_xy_res_pos (x y dx : ℚ) (hx : 0 < x) (hy : 0 < y) :
    0 < (amm_swap_xy x y dx).2.1 ∧ 0 < (amm_swap_xy x y dx).2.2 := by
  by_cases h : dx ≤ 0
  · simpa [amm_swap_xy, h] using ⟨hx, hy⟩
  · push_neg at h
    have hxdx : 0 < x + dx := by linarith
    simp only [amm_swap_xy, if_neg (not_le.mpr h)]
    exact ⟨hxdx, div_pos (mul_pos hx hy) hxdx⟩

theorem amm_swap_xy_out_nonneg (x y dx : ℚ) (hx : 0 < x) (hy : 0 ≤ y) :
    0 ≤ (amm_swap_xy x y dx).1 := by
  by_cases h : dx ≤ 0
  · simp [amm_swap_xy, h]
  · push_neg at h
    have hxdx : 0 < x + dx := by linarith
    have hdiv : x * y / (x + dx) ≤ y := by
      rw [div_le_iff₀ hxdx]
      nlinarith
    simp only [amm_swap_xy, if_neg (not_le.mpr h)]
    simpa using sub_nonneg.mpr hdiv

theorem whaleStep_pos (wdb price : ℚ) (bd : ℤ) (d : ℕ) (s : SimState)
    (ht : 0 < s.tao_r) (ha : 0 < s.alpha_r) :
    0 < (whaleStep wdb bd d price s).tao_r ∧ 0 < (whaleStep wdb bd d price s).alpha_r := by
  simp only [whaleStep]
  split_ifs with h1 h2
  · have p1 := amm_swap_xy_res_pos s.tao_r s.alpha_r wdb ht ha
    have p2 := amm_swap_xy_res_pos (amm_swap_xy s.tao_r s.alpha_r wdb).2.2
      (amm_swap_xy s.tao_r s.alpha_r wdb).2.1 (1/4 * wdb / max price (1/10^12)) p1.2 p1.1
    exact ⟨p2.2, p2.1⟩
  · exact amm_swap_xy_res_pos s.tao_r s.alpha_r wdb ht ha
  · exact ⟨ht, ha⟩

theorem buybackStep_pos (ib : Bool) (d : ℕ) (s : SimState)
    (ht : 0 < s.tao_r) (ha : 0 < s.alpha_r) :
    0 < (buybackStep ib d s).tao_r ∧ 0 < (buybackStep ib d s).alpha_r := by
  simp only [buybackStep]
  split_ifs with h
  · exact amm_swap_xy_res_pos s.tao_r s.alpha_r _ ht ha
  · exact ⟨ht, ha⟩

theorem emissionFactor_pos (d : ℕ) : 0 < emissionFactor d := by
  simp only [emissionFactor]
  split_ifs <;> norm_num

theorem emissionStep_pos (d : ℕ) (price : ℚ) (s : SimState)
    (ht : 0 < s.tao_r) (ha : 0 < s.alpha_r) (hp : 0 ≤ price) :
    0 < (emissionStep d price s).tao_r ∧ 0 < (emissionStep d price s).alpha_r := by
  have hf := emissionFactor_pos d
  have hdb : (0:ℚ) < DAILY_BLOCKS := by norm_num [DAILY_BLOCKS]
  constructor
  · have : 0 ≤ DAILY_BLOCKS * price * emissionFactor d := by positivity
    simp only [emissionStep]
    linarith
  · have : 0 < DAILY_BLOCKS * emissionFactor d := by positivity
    simp only [emissionStep]
    linarith

theorem minerSellStep_pos (d : ℕ) (s : SimState)
    (ht : 0 < s.tao_r) (ha : 0 < s.alpha_r) :
    0 < (minerSellStep d s).tao_r ∧ 0 < (minerSellStep d s).alpha_r := by
  simp only [minerSellStep]
  split_ifs with h
  · have p := amm_swap_xy_res_pos s.alpha_r s.tao_r
      (DAILY_BLOCKS * MINER_EMISSION_SHARE * dynamicBurn d) ha ht
    exact ⟨p.2, p.1⟩
  · exact ⟨ht, ha⟩

theorem simStep_pos (wdb : ℚ) (bd : ℤ) (ib : Bool) (d : ℕ) (s : SimState)
    (ht : 0 < s.tao_r) (ha : 0 < s.alpha_r) :
    0 < (simStep wdb bd ib d s).1.tao_r ∧ 0 < (simStep wdb bd ib d s).1.alpha_r := by
  have hp : 0 ≤ s.tao_r / s.alpha_r := (div_pos ht ha).le
  have p1 := whaleStep_pos wdb (s.tao_r / s.alpha_r) bd d s ht ha
  have p2 := buybackStep_pos ib d _ p1.1 p1.2
  have p3 := emissionStep_pos d (s.tao_r / s.alpha_r) _ p2.1 p2.2 hp
  have p4 := minerSellStep_pos d _ p3.1 p3.2
  exact p4

theorem simStep_record_state (wdb : ℚ) (bd : ℤ) (ib : Bool) (d : ℕ) (s : SimState) :
    (simStep wdb bd ib d s).2.tao_reserve = (simStep wdb bd ib d s).1.tao_r ∧
    (simStep wdb bd ib d s).2.alpha_reserve = (simStep wdb bd ib d s).1.alpha_r ∧
    (simStep wdb bd ib d s).2.whale_alpha = (simStep wdb bd ib d s).1.whale_alpha_holdings ∧
    (simStep wdb bd ib d s).2.whale_tao_spent = (simStep wdb bd ib d s).1.whale_tao_spent_cum ∧
    (simStep wdb bd ib d s).2.day = d :=
  ⟨rfl, rfl, rfl, rfl, rfl⟩

theorem buybackStep_whale (ib : Bool) (d : ℕ) (s : SimState) :
    (buybackStep ib d s).whale_alpha_holdings = s.whale_alpha_holdings ∧
    (buybackStep ib d s).whale_tao_spent_cum = s.whale_tao_spent_cum := by
  simp only [buybackStep]
  split_ifs <;> exact ⟨rfl, rfl⟩

theorem minerSellStep_whale (d : ℕ) (s : SimState) :
    (minerSellStep d s).whale_alpha_holdings = s.whale_alpha_holdings ∧
    (minerSellStep d s).whale_tao_spent_cum = s.whale_tao_spent_cum := by
  simp only [minerSellStep]
  split_ifs <;> exact ⟨rfl, rfl⟩

theorem simStep_whale_eq_whaleStep (wdb : ℚ) (bd : ℤ) (ib : Bool) (d : ℕ) (s : SimState) :
    (simStep wdb bd ib d s).1.whale_alpha_holdings =
      (whaleStep wdb bd d (s.tao_r / s.alpha_r) s).whale_alpha_holdings ∧
    (simStep wdb bd ib d s).1.whale_tao_spent_cum =
      (whaleStep wdb bd d (s.tao_r / s.alpha_r) s).whale_tao_spent_cum := by
  have h1 := buybackStep_whale ib d (whaleStep wdb bd d (s.tao_r / s.alpha_r) s)
  have h2 := minerSellStep_whale d (emissionStep d (s.tao_r / s.alpha_r)
    (buybackStep ib d (whaleStep wdb bd d (s.tao_r / s.alpha_r) s)))
  exact ⟨by rw [show (simStep wdb bd ib d s).1 = minerSellStep d (emissionStep d
      (s.tao_r / s.alpha_r) (buybackStep ib d (whaleStep wdb bd d (s.tao_r / s.alpha_r) s)))
      from rfl, h2.1]; exact h1.1,
    by rw [show (simStep wdb bd ib d s).1 = minerSellStep d (emissionStep d
      (s.tao_r / s.alpha_r) (buybackStep ib d (whaleStep wdb bd d (s.tao_r / s.alpha_r) s)))
      from rfl, h2.2]; exact h1.2⟩

theorem whaleStep_whale_mono (wdb price : ℚ) (bd : ℤ) (d : ℕ) (s : SimState)
    (ht : 0 < s.tao_r) (ha : 0 < s.alpha_r) :
    s.whale_alpha_holdings ≤ (whaleStep wdb bd d price s).whale_alpha_holdings ∧
    s.whale_tao_spent_cum ≤ (whaleStep wdb bd d price s).whale_tao_spent_cum := by
  simp only [whaleStep]
  split_ifs with h1 h2
  · have hdy := amm_swap_xy_out_nonneg s.tao_r s.alpha_r wdb ht ha.le
    exact ⟨by simpa using hdy, by simpa using h1.1.le⟩
  · have hdy := amm_swap_xy_out_nonneg s.tao_r s.alpha_r wdb ht ha.le
    exact ⟨by simpa using hdy, by simpa using h1.1.le⟩
  · exact ⟨le_rfl, le_rfl⟩

theorem simStep_whale_mono (wdb : ℚ) (bd : ℤ) (ib : Bool) (d : ℕ) (s : SimState)
    (ht : 0 < s.tao_r) (ha : 0 < s.alpha_r) :
    s.whale_alpha_holdings ≤ (simStep wdb bd ib d s).1.whale_alpha_holdings ∧
    s.whale_tao_spent_cum ≤ (simStep wdb bd ib d s).1.whale_tao_spent_cum := by
  have he := simStep_whale_eq_whaleStep wdb bd ib d s
  have hm := whaleStep_whale_mono wdb (s.tao_r / s.alpha_r) bd d s ht ha
  exact ⟨he.1 ▸ hm.1, he.2 ▸ hm.2⟩

theorem whaleStep_off (wdb price : ℚ) (bd : ℤ) (d : ℕ) (s : SimState)
    (h : ¬ (0 < wdb ∧ (d : ℤ) < max 0 bd)) :
    whaleStep wdb bd d price s = s := by
  simp only [whaleStep, if_neg h]

theorem simStep_whale_frozen (wdb : ℚ) (bd : ℤ) (ib : Bool) (d : ℕ) (s : SimState)
    (h : max 0 bd ≤ (d : ℤ)) :
    (simStep wdb bd ib d s).1.whale_alpha_holdings = s.whale_alpha_holdings ∧
    (simStep wdb bd ib d s).1.whale_tao_spent_cum = s.whale_tao_spent_cum := by
  have he := simStep_whale_eq_whaleStep wdb bd ib d s
  have hoff : whaleStep wdb bd d (s.tao_r / s.alpha_r) s = s :=
    whaleStep_off _ _ _ _ _ (by rintro ⟨-, hlt⟩; omega)
  rw [he.1, he.2, hoff]
  exact ⟨rfl, rfl⟩

theorem simStep_whale_zero_params (wdb : ℚ) (bd : ℤ) (ib : Bool) (d : ℕ) (s : SimState)
    (h : wdb ≤ 0 ∨ bd ≤ 0) :
    (simStep wdb bd ib d s).1.whale_alpha_holdings = s.whale_alpha_holdings ∧
    (simStep wdb bd ib d s).1.whale_tao_spent_cum = s.whale_tao_spent_cum := by
  have he := simStep_whale_eq_whaleStep wdb bd ib d s
  have hoff : whaleStep wdb bd d (s.tao_r / s.alpha_r) s = s := by
    refine whaleStep_off _ _ _ _ _ ?_
    rintro ⟨hw, hlt⟩
    rcases h with h | h
    · exact absurd hw (not_lt.mpr h)
    · omega
  rw [he.1, he.2, hoff]
  exact ⟨rfl, rfl⟩

theorem stateFrom_pos (wdb : ℚ) (bd : ℤ) (ib : Bool) (d : ℕ) (s : SimState)
    (ht : 0 < s.tao_r) (ha : 0 < s.alpha_r) :
    ∀ i, 0 < (stateFrom wdb bd ib d s i).tao_r ∧ 0 < (stateFrom wdb bd ib d s i).alpha_r := by
  intro i
  induction i with
  | zero => exact ⟨ht, ha⟩
  | succ n ih => exact simStep_pos wdb bd ib (d + n) _ ih.1 ih.2

theorem stateFrom_whale_mono (wdb : ℚ) (bd : ℤ) (ib : Bool) (d : ℕ) (s : SimState)
    (ht : 0 < s.tao_r) (ha : 0 < s.alpha_r) :
    ∀ i j, i ≤ j →
      (stateFrom wdb bd ib d s i).whale_alpha_holdings ≤
        (stateFrom wdb bd ib d s j).whale_alpha_holdings ∧
      (stateFrom wdb bd ib d s i).whale_tao_spent_cum ≤
        (stateFrom wdb bd ib d s j).whale_tao_spent_cum := by
  intro i j hij
  induction j with
  | zero => rw [Nat.le_zero.mp hij]; exact ⟨le_rfl, le_rfl⟩
  | succ n ih =>
    rcases Nat.lt_or_ge i (n + 1) with h | h
    · have hin : i ≤ n := Nat.lt_succ_iff.mp h
      have hpos := stateFrom_pos wdb bd ib d s ht ha n
      have hstep := simStep_whale_mono wdb bd ib (d + n) _ hpos.1 hpos.2
      have := ih hin
      exact ⟨le_trans this.1 hstep.1, le_trans this.2 hstep.2⟩
    · rw [Nat.le_antisymm hij h]; exact ⟨le_rfl, le_rfl⟩

theorem stateFrom_whale_frozen (wdb : ℚ) (bd : ℤ) (ib : Bool) (d : ℕ) (s : SimState) :
    ∀ i j : ℕ, i ≤ j → max 0 bd ≤ (d : ℤ) + (i : ℤ) →
      (stateFrom wdb bd ib d s j).whale_alpha_holdings =
        (stateFrom wdb bd ib d s i).whale_alpha_holdings ∧
      (stateFrom wdb bd ib d s j).whale_tao_spent_cum =
        (stateFrom wdb bd ib d s i).whale_tao_spent_cum := by
  intro i j hij hfr
  induction j with
  | zero => rw [Nat.le_zero.mp hij]; exact ⟨rfl, rfl⟩
  | succ n ih =>
    rcases Nat.lt_or_ge i (n + 1) with h | h
    · have hin : i ≤ n := Nat.lt_succ_iff.mp h
      have hstep := simStep_whale_frozen wdb bd ib (d + n) (stateFrom wdb bd ib d s n)
        (by push_cast; omega)
      have := ih hin
      exact ⟨hstep.1.trans this.1, hstep.2.trans this.2⟩
    · rw [Nat.le_antisymm hij h]; exact ⟨rfl, rfl⟩

theorem stateFrom_whale_zero_params (wdb : ℚ) (bd : ℤ) (ib : Bool) (d : ℕ) (s : SimState)
    (h : wdb ≤ 0 ∨ bd ≤ 0) :
    ∀ i, (stateFrom wdb bd ib d s i).whale_alpha_holdings = s.whale_alpha_holdings ∧
      (stateFrom wdb bd ib d s i).whale_tao_spent_cum = s.whale_tao_spent_cum := by
  intro i
  induction i with
  | zero => exact ⟨rfl, rfl⟩
  | succ n ih =>
    have hstep := simStep_whale_zero_params wdb bd ib (d + n) (stateFrom wdb bd ib d s n) h
    exact ⟨hstep.1.trans ih.1, hstep.2.trans ih.2⟩

theorem runDays_length (wdb : ℚ) (bd : ℤ) (ib : Bool) :
    ∀ (n d : ℕ) (s : SimState), (runDays wdb bd ib s d n).2.length = n := by
  intro n
  induction n with
  | zero => intro d s; rfl
  | succ m ih => intro d s; simp only [runDays, List.length_cons, ih]

theorem stateFrom_shift (wdb : ℚ) (bd : ℤ) (ib : Bool) :
    ∀ (i d : ℕ) (s : SimState),
      stateFrom wdb bd ib d s (i + 1) =
        stateFrom wdb bd ib (d + 1) (simStep wdb bd ib d s).1 i := by
  intro i
  induction i with
  | zero => intro d s; simp [stateFrom]
  | succ n ih =>
    intro d s
    show (simStep wdb bd ib (d + (n + 1)) (stateFrom wdb bd ib d s (n + 1))).1 =
      (simStep wdb bd ib (d + 1 + n) (stateFrom wdb bd ib (d + 1) (simStep wdb bd ib d s).1 n)).1
    rw [ih d s, show d + (n + 1) = d + 1 + n by omega]

theorem runDays_getD (wdb : ℚ) (bd : ℤ) (ib : Bool) (dft : DayRecord) :
    ∀ (n d : ℕ) (s : SimState) (i : ℕ), i < n →
      (runDays wdb bd ib s d n).2.getD i dft =
        (simStep wdb bd ib (d + i) (stateFrom wdb bd ib d s i)).2 := by
  intro n
  induction n with
  | zero => intro d s i h; omega
  | succ m ih =>
    intro d s i h
    match i with
    | 0 => simp [runDays, stateFrom]
    | j + 1 =>
      have hj : j < m := by omega
      show ((runDays wdb bd ib (simStep wdb bd ib d s).1 (d + 1) m).2).getD j dft = _
      rw [ih (d + 1) (simStep wdb bd ib d s).1 j hj, stateFrom_shift,
        show d + 1 + j = d + (j + 1) by omega]

/-! ### Theorems -/

/-- Claim C1: for `reserveIn, reserveOut > 0` and `amountIn ≥ 0`,
`amm_swap_xy` returns `(amountOut, newReserveIn, newReserveOut)` with
`newReserveIn = reserveIn + amountIn`, `amountOut ≥ 0`, and — exactly,
whenever `amountIn > 0` — `newReserveIn * newReserveOut = reserveIn * reserveOut`. -/
theorem amm_swap_xy_invariant (x y dx : ℚ) (hx : 0 < x) (hy : 0 < y) (hdx : 0 ≤ dx) :
    (amm_swap_xy x y dx).2.1 = x + dx ∧
    0 ≤ (amm_swap_xy x y dx).1 ∧
    (0 < dx → (amm_swap_xy x y dx).2.1 * (amm_swap_xy x y dx).2.2 = x * y) := by
  rcases eq_or_lt_of_le hdx with h0 | hpos
  · simp [amm_swap_xy, ← h0]
  · have hne : ¬ dx ≤ 0 := not_le.mpr hpos
    have hxdx : 0 < x + dx := by linarith
    refine ⟨by simp [amm_swap_xy, hne], ?_, fun _ => ?_⟩
    · have hdiv : x * y / (x + dx) ≤ y := by
        rw [div_le_iff₀ hxdx]
        nlinarith
      simp only [amm_swap_xy, hne, if_false]
      simpa using sub_nonneg.mpr hdiv
    · simp only [amm_swap_xy, hne, if_false]
      field_simp

theorem amm_swap_xy_invariant_witness :
    (amm_swap_xy 4 9 2).2.1 = 4 + 2 ∧
    0 ≤ (amm_swap_xy 4 9 2).1 ∧
    (0 < (2:ℚ) → (amm_swap_xy 4 9 2).2.1 * (amm_swap_xy 4 9 2).2.2 = 4 * 9) :=
  amm_swap_xy_invariant 4 9 2 (by norm_num) (by norm_num) (by norm_num)

/-- Claim C2: the piecewise borrowing-rate curve of `compute_daily_rewards`
is exactly continuous at the kink: the below-kink branch and the
above-kink branch agree at `utilization = KINK`. -/
theorem borrow_rate_kink_continuity : borrowRateBelow KINK = borrowRateAbove KINK := by
  norm_num [borrowRateBelow, borrowRateAbove, BASE_BORROWING_FEE, KINK, SLOPE1, SLOPE2]

/-- Claim C7: for `x, y > 0` and `amountIn ≤ 0` (zero or negative),
`amm_swap_xy x y amountIn` is exactly the no-op `(0, x, y)`. -/
theorem amm_swap_xy_noop (x y dx : ℚ) (hx : 0 < x) (hy : 0 < y) (hdx : dx ≤ 0) :
    amm_swap_xy x y dx = (0, x, y) := by
  simp [amm_swap_xy, hdx]

theorem amm_swap_xy_noop_witness : amm_swap_xy 7 11 (-5) = (0, 7, 11) :=
  amm_swap_xy_noop 7 11 (-5) (by norm_num) (by norm_num) (by norm_num)

/-- Claim C3: on every simulated day the carried state is the miner-sell
step applied after the emission step, the alpha reserve grows in the
emission step by exactly `DAILY_BLOCKS * emissionFactor d`, the tao
reserve by `DAILY_BLOCKS * price * emissionFactor d` where `price` is the
day-start snapshot `tao_r / alpha_r` taken before the whale-buy and
buyback swaps, and the factor is `1/2` for `d ≥ 60` and `1` otherwise. -/
theorem emission_in_simStep (wdb : ℚ) (bd : ℤ) (ib : Bool) (d : ℕ) (s : SimState) :
    (simStep wdb bd ib d s).1 =
      minerSellStep d (emissionStep d (s.tao_r / s.alpha_r)
        (buybackStep ib d (whaleStep wdb bd d (s.tao_r / s.alpha_r) s))) ∧
    (emissionStep d (s.tao_r / s.alpha_r)
        (buybackStep ib d (whaleStep wdb bd d (s.tao_r / s.alpha_r) s))).alpha_r =
      (buybackStep ib d (whaleStep wdb bd d (s.tao_r / s.alpha_r) s)).alpha_r +
        DAILY_BLOCKS * emissionFactor d ∧
    (emissionStep d (s.tao_r / s.alpha_r)
        (buybackStep ib d (whaleStep wdb bd d (s.tao_r / s.alpha_r) s))).tao_r =
      (buybackStep ib d (whaleStep wdb bd d (s.tao_r / s.alpha_r) s)).tao_r +
        DAILY_BLOCKS * (s.tao_r / s.alpha_r) * emissionFactor d ∧
    emissionFactor d = (if 60 ≤ d then 1/2 else 1) :=
  ⟨rfl, rfl, rfl, rfl⟩

/-- Claim C5: the whale mark-to-market is a pure read.  The state carried
into the next day is exactly the output of the four mutating phases
(whale, buyback, emission, miner sell); the daily `whale_tao_value` is
`markToMarket` of the reserves and holdings of that post-step state; and the
recorded reserves equal the carried ones, independent of whether the
valuation branch fired. -/
theorem mark_to_market_pure (wdb : ℚ) (bd : ℤ) (ib : Bool) (d : ℕ) (s : SimState) :
    (simStep wdb bd ib d s).1 =
      minerSellStep d (emissionStep d (s.tao_r / s.alpha_r)
        (buybackStep ib d (whaleStep wdb bd d (s.tao_r / s.alpha_r) s))) ∧
    (simStep wdb bd ib d s).2.whale_tao_value =
      markToMarket (simStep wdb bd ib d s).1.alpha_r (simStep wdb bd ib d s).1.tao_r
        (simStep wdb bd ib d s).1.whale_alpha_holdings ∧
    (simStep wdb bd ib d s).2.tao_reserve = (simStep wdb bd ib d s).1.tao_r ∧
    (simStep wdb bd ib d s).2.alpha_reserve = (simStep wdb bd ib d s).1.alpha_r :=
  ⟨rfl, rfl, rfl, rfl⟩

/-- Claim C6: `simulate` is deterministic — two invocations with
identical arguments produce identical `DayRecord` sequences. -/
theorem simulate_deterministic (d1 d2 : ℕ) (t1 t2 a1 a2 w1 w2 : ℚ) (b1 b2 : ℤ)
    (i1 i2 : Bool) (hd : d1 = d2) (ht : t1 = t2) (ha : a1 = a2) (hw : w1 = w2)
    (hb : b1 = b2) (hi : i1 = i2) :
    simulate d1 t1 a1 w1 b1 i1 = simulate d2 t2 a2 w2 b2 i2 := by
  subst hd; subst ht; subst ha; subst hw; subst hb; subst hi; rfl

theorem simulate_deterministic_witness :
    simulate 3 5 7 2 1 true = simulate 3 5 7 2 1 true :=
  simulate_deterministic 3 3 5 5 7 7 2 2 1 1 true true rfl rfl rfl rfl rfl rfl

unseal Rat.add Rat.mul Rat.sub Rat.inv in
/-- Claim C4: in the scenario `simulate 5 1000 1000 0 0 false` (no whale,
no buyback) both reserves strictly increase day over day, the day-0
reserves exceed the initial `1000`, and `whale_tao_value` is `0` in every
record. -/
theorem simulate_no_whale_scenario :
    (simulate 5 1000 1000 0 0 false).length = 5 ∧
    1000 < ((simulate 5 1000 1000 0 0 false).getD 0 default).tao_reserve ∧
    1000 < ((simulate 5 1000 1000 0 0 false).getD 0 default).alpha_reserve ∧
    (∀ i < 4, ((simulate 5 1000 1000 0 0 false).getD i default).tao_reserve <
        ((simulate 5 1000 1000 0 0 false).getD (i+1) default).tao_reserve ∧
      ((simulate 5 1000 1000 0 0 false).getD i default).alpha_reserve <
        ((simulate 5 1000 1000 0 0 false).getD (i+1) default).alpha_reserve) ∧
    (∀ i < 5, ((simulate 5 1000 1000 0 0 false).getD i default).whale_tao_value = 0) := by
  decide

/-- Claim C8: for positive reward and TVL, compounding dominates —
`apy ≥ apr`, i.e. `(1 + r/t)^365 - 1 ≥ (r/t) * 365`; and for a fixed
nonnegative reward the APY is non-increasing as the (positive) TVL grows. -/
theorem compute_apr_apy_compound_and_mono :
    (∀ dr tvl : ℚ, 0 < dr → 0 < tvl →
      (compute_apr_apy dr tvl).1 ≤ (compute_apr_apy dr tvl).2) ∧
    (∀ dr t1 t2 : ℚ, 0 ≤ dr → 0 < t1 → t1 ≤ t2 →
      (compute_apr_apy dr t2).2 ≤ (compute_apr_apy dr t1).2) := by
  constructor
  · intro dr tvl hdr ht
    have hx : 0 < dr / tvl := div_pos hdr ht
    simp only [compute_apr_apy, if_neg (not_le.mpr ht)]
    have h := one_add_mul_le_pow (by linarith : (-2:ℚ) ≤ dr / tvl) 365
    push_cast at h
    refine le_sub_iff_add_le.mpr ?_
    calc dr / tvl * 365 + 1 = 1 + 365 * (dr / tvl) := by ring
      _ ≤ (1 + dr / tvl) ^ 365 := h
  · intro dr t1 t2 hdr h1 h12
    have h2 : 0 < t2 := lt_of_lt_of_le h1 h12
    simp only [compute_apr_apy, if_neg (not_le.mpr h1), if_neg (not_le.mpr h2)]
    have hx : dr / t2 ≤ dr / t1 := div_le_div_of_nonneg_left hdr h1 h12
    have hx2 : 0 ≤ dr / t2 := div_nonneg hdr h2.le
    have hpow := pow_le_pow_left₀ (by linarith : (0:ℚ) ≤ 1 + dr / t2)
      (by linarith : 1 + dr / t2 ≤ 1 + dr / t1) 365
    exact sub_le_sub_right hpow 1

theorem compute_apr_apy_compound_and_mono_witness :
    (compute_apr_apy 1 1).1 ≤ (compute_apr_apy 1 1).2 ∧
    (compute_apr_apy 1 2).2 ≤ (compute_apr_apy 1 1).2 :=
  ⟨compute_apr_apy_compound_and_mono.1 1 1 (by norm_num) (by norm_num),
   compute_apr_apy_compound_and_mono.2 1 1 2 (by norm_num) (by norm_num) (by norm_num)⟩

theorem runDays_all_pos (wdb : ℚ) (bd : ℤ) (ib : Bool) :
    ∀ (n d : ℕ) (s : SimState), 0 < s.tao_r → 0 < s.alpha_r →
      ∀ r ∈ (runDays wdb bd ib s d n).2, 0 < r.tao_reserve ∧ 0 < r.alpha_reserve := by
  intro n
  induction n with
  | zero => intro d s ht ha r hr; simp [runDays] at hr
  | succ m ih =>
    intro d s ht ha r hr
    have hpos := simStep_pos wdb bd ib d s ht ha
    simp only [runDays, List.mem_cons] at hr
    rcases hr with h | h
    · subst h
      have hrs := simStep_record_state wdb bd ib d s
      exact ⟨by rw [hrs.1]; exact hpos.1, by rw [hrs.2.1]; exact hpos.2⟩
    · exact ih (d + 1) (simStep wdb bd ib d s).1 hpos.1 hpos.2 r h

/-- Claim C9: strict positivity of the reserves is an invariant of the day
loop — from strictly positive initial reserves, every `DayRecord` of any
`simulate` run carries strictly positive `tao_reserve` and
`alpha_reserve`, so the price `tao_reserve / alpha_reserve` is always well
defined. -/
theorem simulate_reserves_pos (days : ℕ) (t a wdb : ℚ) (bd : ℤ) (ib : Bool)
    (ht : 0 < t) (ha : 0 < a) :
    ∀ r ∈ simulate days t a wdb bd ib, 0 < r.tao_reserve ∧ 0 < r.alpha_reserve := by
  intro r hr
  exact runDays_all_pos wdb bd ib days 0 ⟨t, a, 0, 0⟩ ht ha r hr

unseal Rat.add Rat.mul Rat.sub Rat.inv in
theorem simulate_reserves_pos_witness :
    0 < ((simulate 1 1 1 0 0 false).getD 0 default).tao_reserve ∧
    0 < ((simulate 1 1 1 0 0 false).getD 0 default).alpha_reserve :=
  simulate_reserves_pos 1 1 1 0 0 false (by norm_num) (by norm_num)
    ((simulate 1 1 1 0 0 false).getD 0 default) (by decide)

/-- Claim C10: in every run from strictly positive initial reserves the
`whale_alpha` and `whale_tao_spent` record fields are non-decreasing in
the day index, are `0` on every day when `whale_daily_buy_tao ≤ 0` or
`buy_days ≤ 0`, and stay constant from day `max(buy_days, 0)` onward
(the record at index `i` is the record of day `i`). -/
theorem whale_fields_invariant (days : ℕ) (t a wdb : ℚ) (bd : ℤ) (ib : Bool)
    (ht : 0 < t) (ha : 0 < a) :
    (∀ i, i < days → ((simulate days t a wdb bd ib).getD i default).day = i) ∧
    (∀ i j : ℕ, i ≤ j → j < days →
      ((simulate days t a wdb bd ib).getD i default).whale_alpha ≤
        ((simulate days t a wdb bd ib).getD j default).whale_alpha ∧
      ((simulate days t a wdb bd ib).getD i default).whale_tao_spent ≤
        ((simulate days t a wdb bd ib).getD j default).whale_tao_spent) ∧
    ((wdb ≤ 0 ∨ bd ≤ 0) → ∀ i, i < days →
      ((simulate days t a wdb bd ib).getD i default).whale_alpha = 0 ∧
      ((simulate days t a wdb bd ib).getD i default).whale_tao_spent = 0) ∧
    (∀ i j : ℕ, max 0 bd ≤ (i : ℤ) → i ≤ j → j < days →
      ((simulate days t a wdb bd ib).getD i default).whale_alpha =
        ((simulate days t a wdb bd ib).getD j default).whale_alpha ∧
      ((simulate days t a wdb bd ib).getD i default).whale_tao_spent =
        ((simulate days t a wdb bd ib).getD j default).whale_tao_spent) := by
  have hrec : ∀ i, i < days →
      (simulate days t a wdb bd ib).getD i default =
        (simStep wdb bd ib (0 + i) (stateFrom wdb bd ib 0 ⟨t, a, 0, 0⟩ i)).2 := by
    intro i hi
    exact runDays_getD wdb bd ib default days 0 ⟨t, a, 0, 0⟩ i hi
  refine ⟨?_, ?_, ?_, ?_⟩
  · intro i hi
    rw [hrec i hi,
      (simStep_record_state wdb bd ib (0 + i) (stateFrom wdb bd ib 0 ⟨t, a, 0, 0⟩ i)).2.2.2.2]
    omega
  · intro i j hij hj
    have hi : i < days := lt_of_le_of_lt hij hj
    rw [hrec i hi, hrec j hj]
    have hri := simStep_record_state wdb bd ib (0 + i) (stateFrom wdb bd ib 0 ⟨t, a, 0, 0⟩ i)
    have hrj := simStep_record_state wdb bd ib (0 + j) (stateFrom wdb bd ib 0 ⟨t, a, 0, 0⟩ j)
    rw [hri.2.2.1, hri.2.2.2.1, hrj.2.2.1, hrj.2.2.2.1]
    exact stateFrom_whale_mono wdb bd ib 0 ⟨t, a, 0, 0⟩ ht ha (i + 1) (j + 1) (by omega)
  · intro hz i hi
    rw [hrec i hi]
    have hri := simStep_record_state wdb bd ib (0 + i) (stateFrom wdb bd ib 0 ⟨t, a, 0, 0⟩ i)
    rw [hri.2.2.1, hri.2.2.2.1]
    exact stateFrom_whale_zero_params wdb bd ib 0 ⟨t, a, 0, 0⟩ hz (i + 1)
  · intro i j hfr hij hj
    have hi : i < days := lt_of_le_of_lt hij hj
    rw [hrec i hi, hrec j hj]
    have hri := simStep_record_state wdb bd ib (0 + i) (stateFrom wdb bd ib 0 ⟨t, a, 0, 0⟩ i)
    have hrj := simStep_record_state wdb bd ib (0 + j) (stateFrom wdb bd ib 0 ⟨t, a, 0, 0⟩ j)
    rw [hri.2.2.1, hri.2.2.2.1, hrj.2.2.1, hrj.2.2.2.1]
    have hfz := stateFrom_whale_frozen wdb bd ib 0 ⟨t, a, 0, 0⟩ (i + 1) (j + 1)
      (by omega) (le_trans hfr (by push_cast; omega))
    exact ⟨hfz.1.symm, hfz.2.symm⟩

theorem whale_fields_invariant_witness :
    ((simulate 2 1 1 0 0 false).getD 0 default).whale_alpha = 0 ∧
    ((simulate 2 1 1 0 0 false).getD 0 default).whale_tao_spent = 0 :=
  (whale_fields_invariant 2 1 1 0 0 false (by norm_num) (by norm_num)).2.2.1
    (Or.inl le_rfl) 0 (by norm_num)

end TenexAnalytics
